import Mathlib

/-!
Shallow embedding of `src/app.py`, a single-page dashboard over a table of
municipality records (family-farming credit exposure in Zona da Mata/MG).

A table cell is either missing (pandas NaN / NA), a number, or a piece of
text that does not parse as a number (`pd.to_numeric(errors = coerce)`
sends parsable text to its numeric value, so text cells here stand for the
unparsable ones).  Machine floats are modelled by exact rationals.
-/

namespace ZdmApp

/-- A raw table cell: missing, numeric, or non-numeric text. -/
inductive Cell where
  | null : Cell
  | num : ℚ → Cell
  | str : String → Cell
deriving DecidableEq, Repr

/-- One row of the merged CSV.  The typed fields are the columns the app
manipulates (the seven `NUMERIC_COLUMNS`, the IBGE identifier, the region
and municipality labels); `other` holds the remaining columns cell-for-cell. -/
structure Row where
  cafPF : Cell
  cafPJ : Cell
  women : Cell
  men : Cell
  af : Cell
  operations : Cell
  credit : Cell
  ibge : Cell
  region : Option String
  municipality : Option String
  other : List (Option String)
deriving DecidableEq, Repr

/-- `pd.to_numeric(col, errors = coerce)`: numbers stay, everything else
becomes missing. -/
def toNumericCell : Cell → Cell
  | Cell.num q => Cell.num q
  | _ => Cell.null

/-- `fillna(0)` / `fillna(0.0)` on a single cell. -/
def fillZero : Cell → Cell
  | Cell.null => Cell.num 0
  | c => c

/-- numpy round-half-to-even of a rational, as used by `Series.round()`. -/
def roundHalfEven (q : ℚ) : ℤ :=
  let f : ℤ := Rat.floor q
  if q - (f : ℚ) < 1/2 then f
  else if (1 : ℚ)/2 < q - (f : ℚ) then f + 1
  else if f % 2 = 0 then f else f + 1

/-- Python `int(...)` / numpy float-to-int cast: truncation toward zero. -/
def pyInt (q : ℚ) : ℤ := if 0 ≤ q then Rat.floor q else -Rat.floor (-q)

/-- Rounding applied by `.round()` to a (numeric-or-missing) cell. -/
def roundCell : Cell → Cell
  | Cell.num q => Cell.num ((roundHalfEven q : ℤ) : ℚ)
  | c => c

/-- Cleaning of a plain numeric column (only `to_numeric`); this is what the
column `Operações em 2025` receives. -/
def numClean (c : Cell) : Cell := toNumericCell c

/-- Cleaning of the credit column: `to_numeric` then `fillna(0.0)`. -/
def creditClean (c : Cell) : Cell := fillZero (toNumericCell c)

/-- Cleaning of an `INTEGER_COLUMNS` column:
`to_numeric` then `fillna(0).round().astype(int)`. -/
def intClean (c : Cell) : Cell := roundCell (fillZero (toNumericCell c))

/-- Cleaning of the IBGE identifier column: `to_numeric(errors = coerce)`
then `astype("Int64")`.  The nullable-integer cast raises on a non-integral
float, hence the `Option`. -/
def ibgeClean (c : Cell) : Option Cell :=
  match toNumericCell c with
  | Cell.num q => if q.den = 1 then some (Cell.num q) else none
  | _ => some Cell.null

/-- `preprocess_data` restricted to one row (columns are treated
independently, so the per-column pipelines above compose the row). -/
def preprocessRow (r : Row) : Option Row :=
  (ibgeClean r.ibge).map fun ib =>
    { r with
      cafPF := intClean r.cafPF
      cafPJ := intClean r.cafPJ
      women := intClean r.women
      men := intClean r.men
      af := intClean r.af
      operations := numClean r.operations
      credit := creditClean r.credit
      ibge := ib }

/-- `preprocess_data`: the cleaning pass over the whole table.  The input
list is not mutated (the source starts from `df.copy()`); failure of the
nullable-integer cast propagates. -/
def preprocess : List Row → Option (List Row)
  | [] => some []
  | r :: rs =>
    match preprocessRow r, preprocess rs with
    | some r2, some rs2 => some (r2 :: rs2)
    | _, _ => none

/-- Numeric value of a cell for pandas column sums (`skipna` semantics:
missing contributes nothing). -/
def Cell.qval : Cell → ℚ
  | Cell.num q => q
  | _ => 0

/-- A cell holding a (non-null) number. -/
def Cell.isNum : Cell → Bool
  | Cell.num _ => true
  | _ => false

/-- A cell holding a (non-null) integer value. -/
def Cell.isInt : Cell → Bool
  | Cell.num q => q.den == 1
  | _ => false

/-- A cell that is numeric or missing (no text left). -/
def Cell.isNumOrNull : Cell → Bool
  | Cell.str _ => false
  | _ => true

/-! ## Filtering (`filter_data`) -/

/-- Region step of `filter_data`: the sentinel "Todas" passes the table
through; any other selection keeps the rows whose region label equals it. -/
def regionFilter (sel : String) (df : List Row) : List Row :=
  if sel = "Todas" then df
  else df.filter fun r => r.region = some sel

/-- The distinct non-null region labels present in a table, the values the
sidebar offers besides the sentinel (sortedness of the widget list is
irrelevant to which rows each choice selects). -/
def regionsOf (df : List Row) : List String :=
  (df.filterMap Row.region).dedup

/-- The concatenation of the region-filtered subsets over every distinct
region present in the table. -/
def unionOverRegions (df : List Row) : List Row :=
  (regionsOf df).flatMap fun g => regionFilter g df

/-- Municipality step of `filter_data`: an empty selection or one containing
the sentinel "Todos" passes the (region-filtered) table through; otherwise
keep the rows whose municipality name is in the selected set
(`isin`: a missing name matches nothing). -/
def municipalityFilter (sels : List String) (df : List Row) : List Row :=
  if sels = [] ∨ "Todos" ∈ sels then df
  else df.filter fun r =>
    match r.municipality with
    | some m => m ∈ sels
    | none => false

/-! ## KPIs (`render_kpis`) -/

/-- pandas `Series.sum()` over a column (missing cells skipped). -/
def colSum (f : Row → Cell) (df : List Row) : ℚ :=
  (df.map fun r => (f r).qval).sum

/-- pandas `Series.nunique()` on the municipality column: the number of
distinct non-null names. -/
def nuniqueMunicipality (df : List Row) : ℕ :=
  (df.filterMap Row.municipality).dedup.length

/-- The four scalars of `render_kpis`: `int(df[AF].sum())`,
`float(df[CREDIT].sum())`, `int(df[WOMEN].sum())`,
`int(df[MUNICIPALITY].nunique())`. -/
def renderKpis (df : List Row) : ℤ × ℚ × ℤ × ℕ :=
  (pyInt (colSum Row.af df),
   colSum Row.credit df,
   pyInt (colSum Row.women df),
   nuniqueMunicipality df)

/-! ## Credit-concentration chart (`build_credit_concentration_chart`) -/

/-- Descending comparison on the credit column (ties keep earlier rows
first under a stable sort, matching `nlargest` with keep = first). -/
def creditGE (a b : Row) : Prop := b.credit.qval ≤ a.credit.qval

/-- Ascending comparison on the credit column. -/
def creditLE (a b : Row) : Prop := a.credit.qval ≤ b.credit.qval

instance : DecidableRel creditGE := fun a b =>
  inferInstanceAs (Decidable (b.credit.qval ≤ a.credit.qval))

instance : DecidableRel creditLE := fun a b =>
  inferInstanceAs (Decidable (a.credit.qval ≤ b.credit.qval))

instance : IsTotal Row creditGE := ⟨fun a b => le_total b.credit.qval a.credit.qval⟩

instance : IsTrans Row creditGE :=
  ⟨fun _ _ _ h1 h2 => le_trans h2 h1⟩

instance : IsTotal Row creditLE := ⟨fun a b => le_total a.credit.qval b.credit.qval⟩

instance : IsTrans Row creditLE :=
  ⟨fun _ _ _ h1 h2 => le_trans h1 h2⟩

/-- `df.nlargest(10, CREDIT_COL)`: stable descending sort on the credit
column, first 10 rows. -/
def nlargest10 (df : List Row) : List Row :=
  (List.insertionSort creditGE df).take 10

/-- The data behind `build_credit_concentration_chart`:
`df.nlargest(10, CREDIT_COL).sort_values(CREDIT_COL, ascending = True)`. -/
def creditConcentration (df : List Row) : List Row :=
  List.insertionSort creditLE (nlargest10 df)

/-! ## Choropleth derivation (`build_impacted_farmers_map`) -/

/-- Python `str.zfill(w)` on the character list: left-pad with zeros to
width `w` (after any leading sign); input already at least `w` long is
returned unchanged. -/
def zfillChars (w : Nat) : List Char → List Char
  | [] => if w ≤ 0 then [] else List.replicate w '0'
  | c :: rest =>
    if w ≤ (c :: rest).length then c :: rest
    else if c = '-' ∨ c = '+' then
      c :: (List.replicate (w - (c :: rest).length) '0' ++ rest)
    else List.replicate (w - (c :: rest).length) '0' ++ (c :: rest)

/-- Python `str.zfill(w)`. -/
def zfill (w : Nat) (s : String) : String := String.mk (zfillChars w s.data)

/-- The join key the map builds from an integer identifier:
`astype(int).astype(str).str.zfill(7)`. -/
def joinKey (z : ℤ) : String := zfill 7 (toString z)

/-- The columns `build_impacted_farmers_map` selects from the table. -/
structure MapRow where
  ibge : Cell
  municipality : Option String
  af : Cell
deriving DecidableEq, Repr

/-- A choropleth entry after the identifier is turned into a join key. -/
structure MapEntry where
  key : String
  municipality : Option String
  af : Cell
deriving DecidableEq, Repr

/-- `df[[IBGE_COL, MUNICIPALITY_COL, AF_COL]]`. -/
def selectMapCols (df : List Row) : List MapRow :=
  df.map fun r => ⟨r.ibge, r.municipality, r.af⟩

/-- `.dropna(subset = [IBGE_COL])`. -/
def dropnaIbge (l : List MapRow) : List MapRow :=
  l.filter fun m => m.ibge ≠ Cell.null

/-- Key construction for one retained row (`astype(int)` truncates a float
toward zero; on the cleaned table every identifier is already integral).
The text case cannot be reached from a cleaned table. -/
def keyOfCell : Cell → String
  | Cell.num q => joinKey (pyInt q)
  | _ => ""

/-- The data frame behind the choropleth:
select the three columns, drop null identifiers, zero-pad the key. -/
def buildMapDf (df : List Row) : List MapEntry :=
  (dropnaIbge (selectMapCols df)).map fun m => ⟨keyOfCell m.ibge, m.municipality, m.af⟩

/-! ## Dashboard layout (`render_dashboard`) -/

/-- The user-visible pieces `render_dashboard` emits, carrying the data each
is built from. -/
inductive Widget where
  | kpis : ℤ × ℚ × ℤ × ℕ → Widget
  | mapChart : List MapEntry → Widget
  | warning : Widget
  | creditChart : List Row → Widget
  | scatterChart : List Row → Widget
  | donutChart : ℤ × ℤ → Widget
  | dataTable : List Row → Widget
  | exportButton : List Row → Widget
deriving DecidableEq

/-- The two sums behind `build_gender_donut`. -/
def genderDonut (df : List Row) : ℤ × ℤ :=
  (pyInt (colSum Row.women df), pyInt (colSum Row.men df))

/-- `render_dashboard` as the sequence of widgets it emits.  `mapFails`
abstracts whether `build_impacted_farmers_map` (including the remote
geometry fetch inside it) raises; the `try` around the map chart catches
any exception, shows a warning and renders the credit-concentration chart
instead, and the rest of the page is emitted unconditionally. -/
def renderDashboard (mapFails : Bool) (df : List Row) : List Widget :=
  [Widget.kpis (renderKpis df)]
    ++ (if mapFails then [Widget.warning, Widget.creditChart (creditConcentration df)]
        else [Widget.mapChart (buildMapDf df)])
    ++ [Widget.scatterChart df]
    ++ [Widget.creditChart (creditConcentration df)]
    ++ [Widget.donutChart (genderDonut df),
        Widget.dataTable df,
        Widget.exportButton df]

/-! ## Display formatting (`format_brl`, `format_int`)

Monetary values reaching `format_brl` are sums of the credit column; the
formatting claim concerns non-negative amounts, modelled exactly as a
number of cents (so the two-decimal rendering of the format spec `,.2f`
is exact and no binary floating-point rounding is involved). -/

/-- One `str.replace(a, b)` over the characters of a string. -/
def repChar (a b : Char) (l : List Char) : List Char :=
  l.map fun c => if c = a then b else c

/-- Grouping pass of Python format specs with the comma option, on the
reversed digit list: insert `sep` after every third digit from the right. -/
def groupRevAux (sep : Char) : List Char → List Char
  | a :: b :: c :: d :: rest => a :: b :: c :: sep :: groupRevAux sep (d :: rest)
  | l => l

/-- Thousands grouping of a digit string with separator `sep`. -/
def groupSep (sep : Char) (l : List Char) : List Char :=
  (groupRevAux sep l.reverse).reverse

/-- Decimal digits of a natural number, least significant first. -/
def natDigitsRev : Nat → List Char
  | 0 => []
  | n + 1 => Nat.digitChar ((n + 1) % 10) :: natDigitsRev ((n + 1) / 10)
decreasing_by exact Nat.div_lt_self (Nat.succ_pos _) (by norm_num)

/-- Python `str(n)` for a natural number. -/
def natDigits (n : Nat) : List Char :=
  if n = 0 then ['0'] else (natDigitsRev n).reverse

/-- Python `f"\x7bvalue:,.2f\x7d"` on an exact amount of `cents`:
comma-grouped integer part, point, two fractional digits. -/
def pyFormatComma2f (cents : Nat) : List Char :=
  groupSep ',' (natDigits (cents / 100))
    ++ '.' :: [Nat.digitChar (cents % 100 / 10), Nat.digitChar (cents % 10)]

/-- `format_brl`: format with comma grouping, then swap the separators via
the three-step replace chain (comma to X, point to comma, X to point), and
prefix the currency marker. -/
def format_brl (cents : Nat) : String :=
  "R$ " ++ String.mk (repChar 'X' '.' (repChar '.' ',' (repChar ',' 'X' (pyFormatComma2f cents))))

/-- `format_int`: Python `f"\x7bvalue:,\x7d"` then commas replaced by
periods. -/
def format_int (n : Nat) : String :=
  String.mk (repChar ',' '.' (groupSep ',' (natDigits n)))

/-- The spec side of the formatting claim: the amount written with the
period as thousands separator, the comma as decimal separator, two decimal
places, and the `R$` prefix. -/
def brlSpec (cents : Nat) : String :=
  "R$ " ++ String.mk (groupSep '.' (natDigits (cents / 100))
    ++ ',' :: [Nat.digitChar (cents % 100 / 10), Nat.digitChar (cents % 10)])

/-- The spec side for integer counts: digits grouped in thousands by
periods. -/
def intSpec (n : Nat) : String :=
  String.mk (groupSep '.' (natDigits n))

/-- A convenient concrete row for witnesses and counterexamples. -/
def mkRow (reg mun : Option String) (q : ℚ) : Row :=
  { cafPF := Cell.num 1, cafPJ := Cell.num 1, women := Cell.num 1,
    men := Cell.num 1, af := Cell.num 1, operations := Cell.num 1,
    credit := Cell.num q, ibge := Cell.num 123,
    region := reg, municipality := mun, other := [] }

/-! ## Helper lemmas -/

theorem count_filter_neg {α : Type} [BEq α] [LawfulBEq α] {p : α → Bool} {a : α}
    (h : ¬ p a = true) (l : List α) : (l.filter p).count a = 0 :=
  List.count_eq_zero.2 fun hm => h (List.mem_filter.1 hm).2

theorem count_flatMap_regionFilter (df : List Row) (x : Row) (g0 : String)
    (hx : x.region = some g0) :
    ∀ gs : List String, gs.Nodup → (∀ g ∈ gs, g ≠ "Todas") →
      ((gs.flatMap fun g => regionFilter g df).count x) =
        if g0 ∈ gs then df.count x else 0 := by
  intro gs
  induction gs with
  | nil => simp
  | cons g rest ih =>
    intro hnd hts
    have hgt : g ≠ "Todas" := hts g (List.mem_cons_self g rest)
    have hrf : regionFilter g df = df.filter fun r => r.region = some g := by
      simp [regionFilter, hgt]
    rw [List.flatMap_cons, List.count_append, hrf,
      ih (List.nodup_cons.1 hnd).2 fun g2 hg2 => hts g2 (List.mem_cons_of_mem g hg2)]
    by_cases hg : g0 = g
    · subst hg
      have hp : (fun r : Row => decide (r.region = some g0)) x = true := by
        simp [hx]
      have hnr : g0 ∉ rest := (List.nodup_cons.1 hnd).1
      have hcf : (df.filter fun r : Row => decide (r.region = some g0)).count x =
          df.count x := List.count_filter hp
      rw [hcf, if_neg hnr, if_pos (List.mem_cons_self g0 rest), Nat.add_zero]
    · have hp : ¬ (fun r : Row => decide (r.region = some g)) x = true := by
        simp only [decide_eq_true_eq, hx, Option.some.injEq]
        exact hg
      have hcf0 : (df.filter fun r : Row => decide (r.region = some g)).count x = 0 :=
        count_filter_neg (p := fun r : Row => decide (r.region = some g)) hp df
      rw [hcf0]
      simp [List.mem_cons, hg]

/-! ## Claim theorems -/

/-- C5.  If building the geographic choropleth fails, `render_dashboard`
shows a warning and renders the credit-concentration chart in the map slot
(and no map chart at all), while the scatter, the full-width concentration
chart, the donut, the table and the export still render; when the map
succeeds the layout is the same with the map in that slot. -/
theorem dashboard_fallback (df : List Row) :
    renderDashboard true df =
      [Widget.kpis (renderKpis df), Widget.warning,
       Widget.creditChart (creditConcentration df), Widget.scatterChart df,
       Widget.creditChart (creditConcentration df),
       Widget.donutChart (genderDonut df), Widget.dataTable df,
       Widget.exportButton df] ∧
    (∀ m : List MapEntry, Widget.mapChart m ∉ renderDashboard true df) ∧
    renderDashboard false df =
      [Widget.kpis (renderKpis df), Widget.mapChart (buildMapDf df),
       Widget.scatterChart df, Widget.creditChart (creditConcentration df),
       Widget.donutChart (genderDonut df), Widget.dataTable df,
       Widget.exportButton df] := by
  refine ⟨rfl, ?_, rfl⟩
  intro m
  simp [renderDashboard]

/-- C6.  The credit-concentration data is sorted ascending by credit
exposure, has `min 10 n` rows, and its members form a maximal subset of the
table by exposure: the table splits (up to permutation) into the chart rows
and a remainder whose every row has exposure at most that of every chart
row. -/
theorem credit_concentration_spec (df : List Row) :
    List.Sorted creditLE (creditConcentration df) ∧
    (creditConcentration df).length = min 10 df.length ∧
    ∃ rest : List Row, df.Perm (creditConcentration df ++ rest) ∧
      ∀ x ∈ creditConcentration df, ∀ y ∈ rest, y.credit.qval ≤ x.credit.qval := by
  have hs : List.Sorted creditGE (List.insertionSort creditGE df) :=
    List.sorted_insertionSort creditGE df
  have hperm : (List.insertionSort creditGE df).Perm df :=
    List.perm_insertionSort creditGE df
  have hbuild : (creditConcentration df).Perm (nlargest10 df) :=
    List.perm_insertionSort creditLE (nlargest10 df)
  have hsplit : (List.insertionSort creditGE df).take 10 ++
      (List.insertionSort creditGE df).drop 10 = List.insertionSort creditGE df :=
    List.take_append_drop 10 _
  refine ⟨List.sorted_insertionSort creditLE (nlargest10 df), ?_, ?_⟩
  · have h1 : (creditConcentration df).length = (nlargest10 df).length :=
      hbuild.length_eq
    have h2 : (nlargest10 df).length = min 10 (List.insertionSort creditGE df).length := by
      simp [nlargest10]
    rw [h1, h2, hperm.length_eq]
  · refine ⟨(List.insertionSort creditGE df).drop 10, ?_, ?_⟩
    · have h3 : (creditConcentration df ++ (List.insertionSort creditGE df).drop 10).Perm
          ((List.insertionSort creditGE df).take 10 ++ (List.insertionSort creditGE df).drop 10) :=
        (hbuild.append_right _)
      have h4 : ((List.insertionSort creditGE df).take 10 ++
          (List.insertionSort creditGE df).drop 10).Perm df := by
        rw [hsplit]; exact hperm
      exact (h3.trans h4).symm
    · intro x hx y hy
      have hx2 : x ∈ (List.insertionSort creditGE df).take 10 := hbuild.mem_iff.1 hx
      have hpw : List.Pairwise creditGE ((List.insertionSort creditGE df).take 10 ++
          (List.insertionSort creditGE df).drop 10) := by
        rw [hsplit]; exact hs
      exact (List.pairwise_append.1 hpw).2.2 x hx2 y hy

/-- C8.  The municipality step is the identity when the selection is empty
or contains the sentinel "Todos"; otherwise it keeps exactly the rows of
the region-filtered input whose municipality name is in the selection, and
in every case it never admits a row outside its input. -/
theorem municipality_filter_spec (sels : List String) (df : List Row) :
    ((sels = [] ∨ "Todos" ∈ sels) → municipalityFilter sels df = df) ∧
    (∀ x ∈ municipalityFilter sels df, x ∈ df) ∧
    (¬ (sels = [] ∨ "Todos" ∈ sels) →
      ∀ x : Row, x ∈ municipalityFilter sels df ↔
        x ∈ df ∧ ∃ m, x.municipality = some m ∧ m ∈ sels) := by
  refine ⟨fun h => by simp [municipalityFilter, h], ?_, fun h x => ?_⟩
  · intro x hx
    by_cases h : sels = [] ∨ "Todos" ∈ sels
    · simpa [municipalityFilter, h] using hx
    · rw [municipalityFilter, if_neg h] at hx
      exact (List.mem_filter.1 hx).1
  · rw [municipalityFilter, if_neg h, List.mem_filter]
    constructor
    · rintro ⟨hxm, hp⟩
      refine ⟨hxm, ?_⟩
      cases hm : x.municipality with
      | none => rw [hm] at hp; simp at hp
      | some m =>
        rw [hm] at hp
        exact ⟨m, rfl, by simpa using hp⟩
    · rintro ⟨hxm, m, hm, hms⟩
      exact ⟨hxm, by simp [hm, hms]⟩

/-- C8 witness: the municipality-filter theorem applied at a concrete
selection and table, in both the sentinel and the membership branch. -/
theorem municipality_filter_spec_witness :
    municipalityFilter ["Todos"] [mkRow (some "A") (some "M") 1] =
      [mkRow (some "A") (some "M") 1] ∧
    (mkRow (some "A") (some "M") 1 ∈
        municipalityFilter ["M"] [mkRow (some "A") (some "M") 1] ↔
      mkRow (some "A") (some "M") 1 ∈ [mkRow (some "A") (some "M") 1] ∧
        ∃ m, (mkRow (some "A") (some "M") 1).municipality = some m ∧ m ∈ ["M"]) :=
  ⟨(municipality_filter_spec ["Todos"] [mkRow (some "A") (some "M") 1]).1
      (Or.inr (by simp)),
   (municipality_filter_spec ["M"] [mkRow (some "A") (some "M") 1]).2.2
      (by simp) (mkRow (some "A") (some "M") 1)⟩

/-- C2 counterexample: a one-row table whose region label is missing.  The
row is in no specific region's subset, so the union over all regions does
not reconstruct the table. -/
theorem region_partition_counterexample :
    mkRow none (some "M") 1 ∈ [mkRow none (some "M") 1] ∧
    mkRow none (some "M") 1 ∉ unionOverRegions [mkRow none (some "M") 1] := by
  constructor
  · exact List.mem_cons_self _ _
  · have h : unionOverRegions [mkRow none (some "M") 1] = [] := rfl
    rw [h]
    exact List.not_mem_nil _

/-- C2 (amended).  Filtering with the sentinel "Todas" is the identity;
filtering with any other selection keeps exactly the rows whose region
label equals it; and provided no region is literally named "Todas", the
union of the subsets over all distinct regions contains every row with a
non-null region label exactly as often as the table does, while rows with
a missing region label appear in no subset. -/
theorem region_filter_spec (df : List Row) (sel : String)
    (hs : "Todas" ∉ regionsOf df) :
    regionFilter "Todas" df = df ∧
    (sel ≠ "Todas" →
      ∀ x : Row, x ∈ regionFilter sel df ↔ x ∈ df ∧ x.region = some sel) ∧
    (∀ x : Row, ∀ g0, x.region = some g0 →
      (unionOverRegions df).count x = df.count x) ∧
    (∀ x : Row, x.region = none → (unionOverRegions df).count x = 0) := by
  refine ⟨by simp [regionFilter], fun h x => ?_, fun x g0 hx => ?_, fun x hx => ?_⟩
  · rw [regionFilter, if_neg h, List.mem_filter]
    simp
  · have hnd : (regionsOf df).Nodup := List.nodup_dedup _
    have hts : ∀ g ∈ regionsOf df, g ≠ "Todas" := fun g hg he => hs (he ▸ hg)
    rw [unionOverRegions, count_flatMap_regionFilter df x g0 hx (regionsOf df) hnd hts]
    by_cases hmem : x ∈ df
    · have hg0 : g0 ∈ regionsOf df := by
        rw [regionsOf, List.mem_dedup, List.mem_filterMap]
        exact ⟨x, hmem, hx⟩
      rw [if_pos hg0]
    · rw [List.count_eq_zero_of_not_mem hmem]
      simp
  · rw [List.count_eq_zero]
    intro hmem
    rcases List.mem_flatMap.1 hmem with ⟨g, hg, hxg⟩
    have hgt : g ≠ "Todas" := fun he =>
      hs (he ▸ hg)
    rw [regionFilter, if_neg hgt] at hxg
    have := (List.mem_filter.1 hxg).2
    rw [hx] at this
    simp at this

/-- C2 witness: the amended region-filter theorem applied to a concrete
two-region table and a concrete selection. -/
theorem region_filter_spec_witness :
    regionFilter "Todas" [mkRow (some "A") (some "M") 1, mkRow (some "B") (some "N") 2] =
      [mkRow (some "A") (some "M") 1, mkRow (some "B") (some "N") 2] ∧
    (mkRow (some "A") (some "M") 1 ∈
        regionFilter "A" [mkRow (some "A") (some "M") 1, mkRow (some "B") (some "N") 2] ↔
      mkRow (some "A") (some "M") 1 ∈
          [mkRow (some "A") (some "M") 1, mkRow (some "B") (some "N") 2] ∧
        (mkRow (some "A") (some "M") 1).region = some "A") ∧
    (unionOverRegions [mkRow (some "A") (some "M") 1, mkRow (some "B") (some "N") 2]).count
        (mkRow (some "A") (some "M") 1) =
      ([mkRow (some "A") (some "M") 1, mkRow (some "B") (some "N") 2]).count
        (mkRow (some "A") (some "M") 1) := by
  have h := region_filter_spec
    [mkRow (some "A") (some "M") 1, mkRow (some "B") (some "N") 2] "A" (by decide)
  exact ⟨h.1, h.2.1 (by decide) _, h.2.2.1 _ "A" rfl⟩

/-! ## Cleaning-pass lemmas -/

theorem preprocess_forall2 : ∀ {df out : List Row}, preprocess df = some out →
    List.Forall₂ (fun a b => preprocessRow a = some b) df out := by
  intro df
  induction df with
  | nil =>
    intro out h
    simp only [preprocess, Option.some.injEq] at h
    subst h
    exact List.Forall₂.nil
  | cons r rs ih =>
    intro out h
    rw [preprocess] at h
    cases hr : preprocessRow r with
    | none => rw [hr] at h; exact absurd h (by simp)
    | some r2 =>
      cases hrs : preprocess rs with
      | none => rw [hr, hrs] at h; exact absurd h (by simp)
      | some rs2 =>
        rw [hr, hrs] at h
        simp only [Option.some.injEq] at h
        subst h
        exact List.Forall₂.cons hr (ih hrs)

theorem forall2_mem_right {R : Row → Row → Prop} :
    ∀ {l1 l2 : List Row}, List.Forall₂ R l1 l2 → ∀ b ∈ l2, ∃ a ∈ l1, R a b := by
  intro l1 l2 h
  induction h with
  | nil => intro b hb; exact absurd hb (List.not_mem_nil b)
  | cons hr _ ih =>
    intro b hb
    rcases List.mem_cons.1 hb with hb | hb
    · subst hb
      exact ⟨_, List.mem_cons_self _ _, hr⟩
    · rcases ih b hb with ⟨a, ha, hab⟩
      exact ⟨a, List.mem_cons_of_mem _ ha, hab⟩

theorem preprocessRow_shape {a b : Row} (h : preprocessRow a = some b) :
    ∃ ib, ibgeClean a.ibge = some ib ∧
      b = { a with
        cafPF := intClean a.cafPF, cafPJ := intClean a.cafPJ,
        women := intClean a.women, men := intClean a.men,
        af := intClean a.af, operations := numClean a.operations,
        credit := creditClean a.credit, ibge := ib } := by
  rw [preprocessRow] at h
  cases hib : ibgeClean a.ibge with
  | none => rw [hib] at h; exact absurd h (by simp)
  | some ib =>
    rw [hib] at h
    simp only [Option.map_some', Option.some.injEq] at h
    exact ⟨ib, rfl, h.symm⟩

theorem intCast_cell_isInt (z : ℤ) : (Cell.num (z : ℚ)).isInt = true := by
  simp [Cell.isInt, Rat.den_intCast]

theorem intClean_isInt (c : Cell) : (intClean c).isInt = true := by
  cases c with
  | null => exact intCast_cell_isInt (roundHalfEven 0)
  | num q => exact intCast_cell_isInt (roundHalfEven q)
  | str s => exact intCast_cell_isInt (roundHalfEven 0)

theorem creditClean_isNum (c : Cell) : (creditClean c).isNum = true := by
  cases c <;> rfl

theorem numClean_isNumOrNull (c : Cell) : (numClean c).isNumOrNull = true := by
  cases c <;> rfl

theorem ibgeClean_isNumOrNull {c ib : Cell} (h : ibgeClean c = some ib) :
    ib.isNumOrNull = true := by
  cases c with
  | num q =>
    rw [ibgeClean] at h
    by_cases hd : q.den = 1
    · simp only [toNumericCell, hd, if_pos, Option.some.injEq] at h
      subst h; rfl
    · simp [toNumericCell, hd] at h
  | null => simp only [ibgeClean, toNumericCell, Option.some.injEq] at h; subst h; rfl
  | str s => simp only [ibgeClean, toNumericCell, Option.some.injEq] at h; subst h; rfl

theorem ratFloor_eq_floor (q : ℚ) : Rat.floor q = ⌊q⌋ :=
  (Rat.floor_def' q).trans Rat.floor_def.symm

/-- `pyInt` is truncation toward zero: the floor for non-negative input
and the ceiling for negative input. -/
theorem pyInt_eq (q : ℚ) : pyInt q = if 0 ≤ q then ⌊q⌋ else ⌈q⌉ := by
  rw [pyInt, ratFloor_eq_floor, ratFloor_eq_floor]
  by_cases h : 0 ≤ q
  · rw [if_pos h, if_pos h]
  · rw [if_neg h, if_neg h, ← Int.ceil_neg, neg_neg]

theorem pyInt_intCast (z : ℤ) : pyInt (z : ℚ) = z := by
  rw [pyInt_eq]
  by_cases h : (0 : ℚ) ≤ (z : ℚ)
  · rw [if_pos h, Int.floor_intCast]
  · rw [if_neg h, Int.ceil_intCast]

theorem roundHalfEven_intCast (z : ℤ) : roundHalfEven (z : ℚ) = z := by
  simp only [roundHalfEven, ratFloor_eq_floor, Int.floor_intCast]
  norm_num

theorem intClean_idem (c : Cell) : intClean (intClean c) = intClean c := by
  have key : ∀ z : ℤ, intClean (Cell.num (z : ℚ)) = Cell.num (z : ℚ) := by
    intro z
    simp [intClean, toNumericCell, fillZero, roundCell, roundHalfEven_intCast]
  cases c with
  | null => exact key (roundHalfEven 0)
  | num q => exact key (roundHalfEven q)
  | str s => exact key (roundHalfEven 0)

theorem creditClean_idem (c : Cell) : creditClean (creditClean c) = creditClean c := by
  cases c <;> rfl

theorem numClean_idem (c : Cell) : numClean (numClean c) = numClean c := by
  cases c <;> rfl

theorem ibgeClean_stable {c ib : Cell} (h : ibgeClean c = some ib) :
    ibgeClean ib = some ib := by
  cases c with
  | num q =>
    rw [ibgeClean] at h
    by_cases hd : q.den = 1
    · simp only [toNumericCell, hd, if_pos, Option.some.injEq] at h
      subst h
      simp [ibgeClean, toNumericCell, hd]
    · simp [toNumericCell, hd] at h
  | null =>
    simp only [ibgeClean, toNumericCell, Option.some.injEq] at h
    subst h; rfl
  | str s =>
    simp only [ibgeClean, toNumericCell, Option.some.injEq] at h
    subst h; rfl

theorem preprocessRow_idem {a b : Row} (h : preprocessRow a = some b) :
    preprocessRow b = some b := by
  rcases preprocessRow_shape h with ⟨ib, hib, hb⟩
  subst hb
  rw [preprocessRow]
  simp only [ibgeClean_stable hib, Option.map_some', Option.some.injEq]
  simp [intClean_idem, creditClean_idem, numClean_idem]

theorem preprocess_self : ∀ {l : List Row}, (∀ r ∈ l, preprocessRow r = some r) →
    preprocess l = some l := by
  intro l
  induction l with
  | nil => intro _; rfl
  | cons r rs ih =>
    intro h
    rw [preprocess, h r (List.mem_cons_self r rs),
      ih fun r2 h2 => h r2 (List.mem_cons_of_mem r h2)]

/-- A row cleaned exactly as `preprocess_data` would have left it, written
as a concrete table: a negative count and an unparsable operations value
survive the pass. -/
def dirtyRow : Row :=
  { cafPF := Cell.num 1, cafPJ := Cell.num 1, women := Cell.num 1,
    men := Cell.num 1, af := Cell.num (-1), operations := Cell.str "n/d",
    credit := Cell.null, ibge := Cell.num 123,
    region := some "A", municipality := some "M", other := [] }

/-- The image of `dirtyRow` under the cleaning pass. -/
def dirtyRowClean : Row :=
  { cafPF := Cell.num 1, cafPJ := Cell.num 1, women := Cell.num 1,
    men := Cell.num 1, af := Cell.num (-1), operations := Cell.null,
    credit := Cell.num 0, ibge := Cell.num 123,
    region := some "A", municipality := some "M", other := [] }

theorem preprocess_dirty_eval : preprocess [dirtyRow] = some [dirtyRowClean] := by
  have h1 : roundHalfEven 1 = 1 := by simpa using roundHalfEven_intCast 1
  have hm1 : roundHalfEven (-1) = -1 := by simpa using roundHalfEven_intCast (-1)
  simp [preprocess, preprocessRow, dirtyRow, dirtyRowClean, ibgeClean,
    toNumericCell, intClean, fillZero, roundCell, creditClean, numClean, h1, hm1]

/-- C1 counterexample: cleaning neither removes a negative value from a
declared integer column nor guarantees a number in every declared numeric
column — a negative family-farmer count comes out negative, and an
unparsable operations value comes out missing, not zero. -/
theorem preprocess_nonneg_counterexample :
    preprocess [dirtyRow] = some [dirtyRowClean] ∧
    dirtyRowClean.af.qval < 0 ∧
    dirtyRowClean.operations = Cell.null :=
  ⟨preprocess_dirty_eval, by norm_num [dirtyRowClean, Cell.qval], rfl⟩

/-- C1 (amended).  After the cleaning pass, the monetary column holds a
non-null number, every declared integer column holds a non-null integer,
and no declared numeric column holds text (cells are numeric or missing —
the operations column, which is neither integer- nor zero-filled, may stay
missing).  Values are not guaranteed non-negative. -/
theorem preprocess_column_types (df out : List Row) (h : preprocess df = some out) :
    ∀ r ∈ out,
      r.credit.isNum = true ∧
      r.cafPF.isInt = true ∧ r.cafPJ.isInt = true ∧ r.women.isInt = true ∧
      r.men.isInt = true ∧ r.af.isInt = true ∧
      r.operations.isNumOrNull = true ∧ r.ibge.isNumOrNull = true := by
  intro r hr
  rcases forall2_mem_right (preprocess_forall2 h) r hr with ⟨a, _, hab⟩
  rcases preprocessRow_shape hab with ⟨ib, hib, hbshape⟩
  subst hbshape
  exact ⟨creditClean_isNum _, intClean_isInt _, intClean_isInt _, intClean_isInt _,
    intClean_isInt _, intClean_isInt _, numClean_isNumOrNull _, ibgeClean_isNumOrNull hib⟩

/-- C1 witness: the amended column-type theorem at the concrete dirty
table. -/
theorem preprocess_column_types_witness :
    dirtyRowClean.credit.isNum = true ∧ dirtyRowClean.af.isInt = true :=
  let h := preprocess_column_types [dirtyRow] [dirtyRowClean] preprocess_dirty_eval
    dirtyRowClean (List.mem_cons_self _ _)
  ⟨h.1, h.2.2.2.2.2.1⟩

/-- C4.  The cleaning pass is idempotent: a table it has produced passes
through it unchanged. -/
theorem preprocess_idempotent (df out : List Row) (h : preprocess df = some out) :
    preprocess out = some out := by
  apply preprocess_self
  intro r hr
  rcases forall2_mem_right (preprocess_forall2 h) r hr with ⟨a, _, hab⟩
  exact preprocessRow_idem hab

/-- C4 witness: idempotence at the concrete dirty table. -/
theorem preprocess_idempotent_witness :
    preprocess [dirtyRowClean] = some [dirtyRowClean] :=
  preprocess_idempotent [dirtyRow] [dirtyRowClean] preprocess_dirty_eval

/-- C10.  The cleaning pass is frame-preserving: it returns a table with
the same number of rows, in the same order, and each output row keeps its
input row's region label, municipality name, and every column outside the
declared numeric set and the identifier untouched.  (The embedding is
pure: the input table itself is a value and cannot be mutated, matching
the `df.copy()` at the top of the source.) -/
theorem preprocess_frame (df out : List Row) (h : preprocess df = some out) :
    out.length = df.length ∧
    ∀ i (hi : i < df.length) (hi2 : i < out.length),
      (out.get ⟨i, hi2⟩).region = (df.get ⟨i, hi⟩).region ∧
      (out.get ⟨i, hi2⟩).municipality = (df.get ⟨i, hi⟩).municipality ∧
      (out.get ⟨i, hi2⟩).other = (df.get ⟨i, hi⟩).other := by
  have h2 := preprocess_forall2 h
  refine ⟨h2.length_eq.symm, ?_⟩
  intro i hi hi2
  have hrel : preprocessRow (df.get ⟨i, hi⟩) = some (out.get ⟨i, hi2⟩) := by
    have := List.forall₂_iff_get.1 h2
    exact this.2 i hi hi2
  rcases preprocessRow_shape hrel with ⟨ib, _, hshape⟩
  rw [hshape]
  exact ⟨rfl, rfl, rfl⟩

/-- C10 witness: the frame theorem at the concrete dirty table. -/
theorem preprocess_frame_witness :
    ([dirtyRowClean] : List Row).length = ([dirtyRow] : List Row).length ∧
    ([dirtyRowClean].get ⟨0, by decide⟩).region = ([dirtyRow].get ⟨0, by decide⟩).region :=
  let h := preprocess_frame [dirtyRow] [dirtyRowClean] preprocess_dirty_eval
  ⟨h.1, (h.2 0 (by decide) (by decide)).1⟩

/-! ## KPI lemmas -/

/-- The integer held by an integral cell. -/
def intVal : Cell → ℤ
  | Cell.num q => q.num
  | _ => 0

theorem isInt_qval {c : Cell} (h : c.isInt = true) : c.qval = ((intVal c : ℤ) : ℚ) := by
  cases c with
  | num q =>
    have hd : q.den = 1 := by simpa [Cell.isInt] using h
    simp [Cell.qval, intVal, Rat.coe_int_num_of_den_eq_one hd]
  | null => simp [Cell.isInt] at h
  | str s => simp [Cell.isInt] at h

theorem colSum_int (f : Row → Cell) :
    ∀ df : List Row, (∀ r ∈ df, (f r).isInt = true) →
      colSum f df = (((df.map fun r => intVal (f r)).sum : ℤ) : ℚ) := by
  intro df
  induction df with
  | nil => intro _; simp [colSum]
  | cons r rs ih =>
    intro h
    have hr := h r (List.mem_cons_self r rs)
    have hrest := ih fun a ha => h a (List.mem_cons_of_mem r ha)
    simp only [colSum, List.map_cons, List.sum_cons] at hrest ⊢
    rw [isInt_qval hr, hrest]
    push_cast
    ring

/-- C3.  On a table whose family-farmer and women columns hold integers (as
every cleaned table does), the four KPI scalars are exactly the integer sum
of the family-farmer column, the sum of the credit column, the integer sum
of the women column, and the number of distinct municipality names — each
sum running over exactly the rows of the table, each row once. -/
theorem render_kpis_spec (df : List Row)
    (h : ∀ r ∈ df, r.af.isInt = true ∧ r.women.isInt = true) :
    renderKpis df =
      ((df.map fun r => intVal r.af).sum,
       (df.map fun r => r.credit.qval).sum,
       (df.map fun r => intVal r.women).sum,
       (df.filterMap Row.municipality).toFinset.card) := by
  have h1 : colSum Row.af df = (((df.map fun r => intVal r.af).sum : ℤ) : ℚ) :=
    colSum_int Row.af df fun r hr => (h r hr).1
  have h2 : colSum Row.women df = (((df.map fun r => intVal r.women).sum : ℤ) : ℚ) :=
    colSum_int Row.women df fun r hr => (h r hr).2
  rw [renderKpis, h1, h2, pyInt_intCast, pyInt_intCast]
  simp [nuniqueMunicipality, List.card_toFinset, colSum]

/-- C3 witness: the KPI theorem at a concrete one-row table. -/
theorem render_kpis_spec_witness :
    renderKpis [mkRow (some "A") (some "M") 5] =
      (([mkRow (some "A") (some "M") 5].map fun r => intVal r.af).sum,
       ([mkRow (some "A") (some "M") 5].map fun r => r.credit.qval).sum,
       ([mkRow (some "A") (some "M") 5].map fun r => intVal r.women).sum,
       (([mkRow (some "A") (some "M") 5]).filterMap Row.municipality).toFinset.card) :=
  render_kpis_spec [mkRow (some "A") (some "M") 5] (by
    intro r hr
    rcases List.mem_cons.1 hr with h | h
    · subst h
      constructor <;> simp [mkRow, Cell.isInt]
    · exact absurd h (List.not_mem_nil r))

/-! ## Join-key lemmas -/

theorem zfillChars_length (w : ℕ) (l : List Char) :
    (zfillChars w l).length = max w l.length := by
  cases l with
  | nil =>
    by_cases hw : w ≤ 0
    · simp [zfillChars, hw]
      omega
    · simp [zfillChars, hw]
  | cons c rest =>
    rw [zfillChars]
    by_cases h1 : w ≤ (c :: rest).length
    · rw [if_pos h1]
      simp only [List.length_cons] at h1 ⊢
      omega
    · rw [if_neg h1]
      by_cases hc : c = '-' ∨ c = '+'
      · rw [if_pos hc]
        simp only [List.length_cons, List.length_append, List.length_replicate] at h1 ⊢
        omega
      · rw [if_neg hc]
        simp only [List.length_cons, List.length_append, List.length_replicate] at h1 ⊢
        omega

theorem zfill_length (w : ℕ) (s : String) : (zfill w s).length = max w s.length := by
  have h : (zfill w s).length = (zfillChars w s.data).length := rfl
  rw [h, zfillChars_length]
  rfl

/-- C7 counterexample: on an identifier with more than seven digits the
join key is not a 7-character string — `zfill` only pads, it never
truncates. -/
theorem join_key_counterexample :
    buildMapDf [{ mkRow (some "A") (some "M") 1 with ibge := Cell.num 12345678 }] =
      [{ key := joinKey 12345678, municipality := some "M", af := Cell.num 1 }] ∧
    joinKey 12345678 = "12345678" ∧
    ("12345678" : String).length ≠ 7 := by
  have hp : pyInt ((12345678 : ℚ)) = (12345678 : ℤ) := by
    have h := pyInt_intCast 12345678
    rw [show (((12345678 : ℤ)) : ℚ) = (12345678 : ℚ) by norm_num] at h
    exact h
  refine ⟨?_, ?_, by decide⟩
  · simp [buildMapDf, dropnaIbge, selectMapCols, keyOfCell, mkRow, hp]
  · rfl

/-- C7 (amended).  The choropleth derivation keeps, in order, exactly the
rows with a non-null identifier, turning each identifier into the
`zfill(7)` join key; the key is the identifier padded on the left with
zeros to at least seven characters (exactly seven when the identifier has
at most seven digits), and the identifier 123 becomes "0000123". -/
theorem map_join_key_spec (df : List Row) :
    buildMapDf df =
      (df.filter fun r => r.ibge ≠ Cell.null).map
        (fun r => { key := keyOfCell r.ibge, municipality := r.municipality,
                    af := r.af : MapEntry }) ∧
    (∀ z : ℤ, (joinKey z).length = max 7 (toString z).length) ∧
    joinKey 123 = "0000123" := by
  refine ⟨?_, fun z => zfill_length 7 (toString z), by rfl⟩
  rw [buildMapDf, dropnaIbge, selectMapCols, List.filter_map, List.map_map]
  rfl

/-! ## Formatting lemmas -/

theorem repChar_append (a b : Char) (u v : List Char) :
    repChar a b (u ++ v) = repChar a b u ++ repChar a b v :=
  List.map_append _ u v

theorem repChar_cons (a b x : Char) (v : List Char) :
    repChar a b (x :: v) = (if x = a then b else x) :: repChar a b v := rfl

theorem repChar_noop {a b : Char} : ∀ l : List Char, (∀ c ∈ l, c ≠ a) →
    repChar a b l = l := by
  intro l
  induction l with
  | nil => intro _; rfl
  | cons x xs ih =>
    intro h
    rw [repChar_cons, if_neg (h x (List.mem_cons_self x xs)),
      ih fun c hc => h c (List.mem_cons_of_mem x hc)]

theorem digitChar_digit {d : ℕ} (h : d < 10) : (Nat.digitChar d).isDigit = true := by
  interval_cases d <;> rfl

theorem isDigit_ne_sep {c : Char} (h : c.isDigit = true) :
    c ≠ ',' ∧ c ≠ '.' ∧ c ≠ 'X' := by
  refine ⟨fun he => ?_, fun he => ?_, fun he => ?_⟩ <;>
    (subst he; exact absurd h (by decide))

theorem natDigitsRev_digit : ∀ n : ℕ, ∀ c ∈ natDigitsRev n, c.isDigit = true := by
  intro n
  induction n using Nat.strong_induction_on with
  | _ n ih =>
    cases n with
    | zero =>
      intro c hc
      rw [natDigitsRev] at hc
      exact absurd hc (List.not_mem_nil c)
    | succ m =>
      intro c hc
      rw [natDigitsRev] at hc
      rcases List.mem_cons.1 hc with h | h
      · subst h
        exact digitChar_digit (Nat.mod_lt _ (by norm_num))
      · exact ih ((m + 1) / 10) (Nat.div_lt_self (Nat.succ_pos m) (by norm_num)) c h

theorem natDigits_digit (n : ℕ) : ∀ c ∈ natDigits n, c.isDigit = true := by
  intro c hc
  rw [natDigits] at hc
  by_cases h : n = 0
  · rw [if_pos h] at hc
    simp only [List.mem_singleton] at hc
    subst hc; rfl
  · rw [if_neg h] at hc
    exact natDigitsRev_digit n c (List.mem_reverse.1 hc)

theorem mem_groupRevAux (sep : Char) :
    ∀ (l : List Char) (x : Char), x ∈ groupRevAux sep l → x = sep ∨ x ∈ l
  | [], x, h => absurd h (List.not_mem_nil x)
  | [a], x, h => Or.inr (by simpa [groupRevAux] using h)
  | [a, b], x, h => Or.inr (by simpa [groupRevAux] using h)
  | [a, b, d], x, h => Or.inr (by simpa [groupRevAux] using h)
  | a :: b :: d :: e :: rest, x, h => by
    simp only [groupRevAux, List.mem_cons] at h
    rcases h with rfl | rfl | rfl | rfl | h
    · exact Or.inr (by simp)
    · exact Or.inr (by simp)
    · exact Or.inr (by simp)
    · exact Or.inl rfl
    · rcases mem_groupRevAux sep (e :: rest) x h with h2 | h2
      · exact Or.inl h2
      · rcases List.mem_cons.1 h2 with h3 | h3
        · exact Or.inr (by simp [h3])
        · exact Or.inr (by simp [List.mem_cons_of_mem, h3])

theorem repChar_groupRevAux {a b : Char} :
    ∀ l : List Char, (∀ c ∈ l, c ≠ a) →
      repChar a b (groupRevAux a l) = groupRevAux b l
  | [], _ => rfl
  | [x], h => by
    show (if x = a then b else x) :: [] = [x]
    rw [if_neg (h x (by simp))]
  | [x, y], h => by
    show (if x = a then b else x) :: (if y = a then b else y) :: [] = [x, y]
    rw [if_neg (h x (by simp)), if_neg (h y (by simp))]
  | [x, y, z], h => by
    show (if x = a then b else x) :: (if y = a then b else y) ::
        (if z = a then b else z) :: [] = [x, y, z]
    rw [if_neg (h x (by simp)), if_neg (h y (by simp)), if_neg (h z (by simp))]
  | x :: y :: z :: w :: rest, h => by
    have hrec := repChar_groupRevAux (a := a) (b := b) (w :: rest) fun c hc =>
      h c (List.mem_cons_of_mem x (List.mem_cons_of_mem y (List.mem_cons_of_mem z hc)))
    show (if x = a then b else x) :: (if y = a then b else y) ::
        (if z = a then b else z) :: (if a = a then b else a) ::
        repChar a b (groupRevAux a (w :: rest)) =
      x :: y :: z :: b :: groupRevAux b (w :: rest)
    rw [if_neg (h x (by simp)), if_neg (h y (by simp)), if_neg (h z (by simp)),
      if_pos rfl, hrec]

theorem repChar_groupSep {a b : Char} (l : List Char) (h : ∀ c ∈ l, c ≠ a) :
    repChar a b (groupSep a l) = groupSep b l := by
  rw [groupSep, groupSep, repChar, List.map_reverse]
  rw [show (groupRevAux a l.reverse).map (fun c => if c = a then b else c) =
      repChar a b (groupRevAux a l.reverse) from rfl]
  rw [repChar_groupRevAux l.reverse fun c hc => h c (List.mem_reverse.1 hc)]

theorem groupSep_members {sep : Char} {l : List Char} {x : Char}
    (hx : x ∈ groupSep sep l) : x = sep ∨ x ∈ l := by
  rw [groupSep, List.mem_reverse] at hx
  rcases mem_groupRevAux sep l.reverse x hx with h | h
  · exact Or.inl h
  · exact Or.inr (List.mem_reverse.1 h)

theorem brl_swap (I F : List Char) (hI : ∀ c ∈ I, c.isDigit = true)
    (hF : ∀ c ∈ F, c.isDigit = true) :
    repChar 'X' '.' (repChar '.' ',' (repChar ',' 'X' (groupSep ',' I ++ '.' :: F))) =
      groupSep '.' I ++ ',' :: F := by
  have hI1 : ∀ c ∈ I, c ≠ ',' := fun c hc => (isDigit_ne_sep (hI c hc)).1
  have hIX : ∀ c ∈ I, c ≠ 'X' := fun c hc => (isDigit_ne_sep (hI c hc)).2.2
  have hF1 : ∀ c ∈ F, c ≠ ',' := fun c hc => (isDigit_ne_sep (hF c hc)).1
  have hFd : ∀ c ∈ F, c ≠ '.' := fun c hc => (isDigit_ne_sep (hF c hc)).2.1
  have hFX : ∀ c ∈ F, c ≠ 'X' := fun c hc => (isDigit_ne_sep (hF c hc)).2.2
  have hGX : ∀ c ∈ groupSep 'X' I, c ≠ '.' := by
    intro c hc
    rcases groupSep_members hc with rfl | h
    · decide
    · exact (isDigit_ne_sep (hI c h)).2.1
  have s1 : repChar ',' 'X' (groupSep ',' I ++ '.' :: F) = groupSep 'X' I ++ '.' :: F := by
    rw [repChar_append, repChar_cons, if_neg (by decide : ('.' : Char) ≠ ','),
      repChar_groupSep I hI1, repChar_noop F hF1]
  have s2 : repChar '.' ',' (groupSep 'X' I ++ '.' :: F) = groupSep 'X' I ++ ',' :: F := by
    rw [repChar_append, repChar_cons, if_pos rfl, repChar_noop _ hGX, repChar_noop F hFd]
  have s3 : repChar 'X' '.' (groupSep 'X' I ++ ',' :: F) = groupSep '.' I ++ ',' :: F := by
    rw [repChar_append, repChar_cons, if_neg (by decide : (',' : Char) ≠ 'X'),
      repChar_groupSep I hIX, repChar_noop F hFX]
  rw [s1, s2, s3]

/-- C9.  The display formatting is the pure string transform the spec
describes: a monetary amount (an exact number of cents) is rendered with
two decimal places, periods as thousands separators, a comma as the
decimal separator, and the "R$" prefix; an integer count is rendered with
periods as thousands separators. -/
theorem formatting_spec :
    (∀ cents : ℕ, format_brl cents = brlSpec cents) ∧
    (∀ n : ℕ, format_int n = intSpec n) := by
  constructor
  · intro cents
    rw [format_brl, brlSpec, pyFormatComma2f]
    have hF : ∀ c ∈ [Nat.digitChar (cents % 100 / 10), Nat.digitChar (cents % 10)],
        c.isDigit = true := by
      intro c hc
      rcases List.mem_cons.1 hc with h | h
      · subst h; exact digitChar_digit (by omega)
      · rcases List.mem_cons.1 h with h2 | h2
        · subst h2; exact digitChar_digit (by omega)
        · exact absurd h2 (List.not_mem_nil c)
    rw [brl_swap _ _ (natDigits_digit (cents / 100)) hF]
  · intro n
    rw [format_int, intSpec,
      repChar_groupSep _ fun c hc => (isDigit_ne_sep (natDigits_digit n c hc)).1]

end ZdmApp
